import Mathlib

/-!
Shallow embedding of `src/app.py`: the rank computation in
`clean_and_rank_data`, the JSON export in `generate_rank_json`, and the
client-side encoding callback (color intensity, color channel, bar chart).
Numeric cells are modelled as exact rationals; parsing models the
exponent-free decimal literals accepted by `astype(float)`.
-/

namespace SDoH

/-- A character stripped by the regex character class at `app.py` line 45
(the class `[\$,%,]` contains the dollar sign, the percent sign and the
comma). -/
def isStripped (c : Char) : Bool := c = '$' || c = '%' || c = ','

/-- The per-cell effect of `replace(r'[\$,%,]', '', regex=True)`
(`app.py` line 45): remove every occurrence of the stripped characters. -/
def stripSymbols (s : String) : String :=
  String.mk (s.data.filter (fun c => !isStripped c))

/-- Value of a digit string read left to right. -/
def digitsToNat (cs : List Char) : ℕ :=
  cs.foldl (fun n c => 10 * n + (c.toNat - 48)) 0

/-- Unsigned decimal literal: digits with an optional single decimal
point, at least one digit overall. Models the numeric strings accepted
by `astype(float)` at `app.py` line 45 (exponent-free decimals). -/
def parseUnsigned (cs : List Char) : Option ℚ :=
  let intPart := cs.takeWhile Char.isDigit
  let rest := cs.dropWhile Char.isDigit
  match rest with
  | [] => if intPart.isEmpty then none else some (digitsToNat intPart)
  | '.' :: frac =>
    if frac.all Char.isDigit && !(intPart.isEmpty && frac.isEmpty) then
      some ((digitsToNat intPart : ℚ) + (digitsToNat frac : ℚ) / (10 : ℚ) ^ frac.length)
    else none
  | _ => none

/-- Numeric parse of one cell, as in `astype(float)`: optional sign, then
an unsigned decimal literal; `none` models the parse error. -/
def parseFloat (s : String) : Option ℚ :=
  match s.data with
  | '-' :: rest => (parseUnsigned rest).map (fun q => -q)
  | '+' :: rest => parseUnsigned rest
  | cs => parseUnsigned cs

/-- One cell of `clean_and_rank_data` (`app.py` lines 44-45): strip the
symbols, substitute the string `"0"` when the residue is empty, parse as
a number. -/
def cleanCell (s : String) : Option ℚ :=
  let t := stripSymbols s
  parseFloat (if t = "" then "0" else t)

/-- The whole-column clean: every cell is processed independently. -/
def cleanColumn (cells : List String) : List (Option ℚ) := cells.map cleanCell

/-- Descending order used by `rank(ascending=False, ...)` at
`app.py` line 49. -/
def descRel (a b : ℚ) : Prop := b ≤ a

instance : DecidableRel descRel := fun a b => inferInstanceAs (Decidable (b ≤ a))

instance : IsTotal ℚ descRel := ⟨fun a b => le_total b a⟩

instance : IsTrans ℚ descRel := ⟨fun _ _ _ hab hbc => le_trans hbc hab⟩

/-- The descending sort of a cleaned column. -/
def sortDesc (vs : List ℚ) : List ℚ := List.insertionSort descRel vs

/-- Index of the first occurrence of `v` (0-based). -/
def firstIdx {α : Type} [DecidableEq α] (v : α) : List α → ℕ
  | [] => 0
  | w :: ws => if w = v then 0 else firstIdx v ws + 1

/-- `rank(ascending=False, method='min')` at `app.py` line 49: the
1-based position of the first element equal to `v` in the
descending-sorted column, shared by the whole tie group of `v`. -/
def rankOf (vs : List ℚ) (v : ℚ) : ℕ := 1 + firstIdx v (sortDesc vs)

/-- `ranks_df[col]` (`app.py` line 49): the rank of every cell of a
column. -/
def ranksCol (vs : List ℚ) : List ℕ := vs.map (rankOf vs)

lemma firstIdx_sorted (s : List ℚ) (hs : List.Sorted descRel s)
    (v : ℚ) (hv : v ∈ s) : firstIdx v s = s.countP (fun w => v < w) := by
  induction s with
  | nil => simp at hv
  | cons w ws ih =>
    have hpair := List.sorted_cons.mp hs
    by_cases hwv : w = v
    · subst hwv
      have hzero : ws.countP (fun x => w < x) = 0 := by
        apply List.countP_eq_zero.mpr
        intro x hx
        simpa using not_lt.mpr (hpair.1 x hx)
      simp [firstIdx, List.countP_cons, hzero]
    · have hv' : v ∈ ws := by
        rcases List.mem_cons.mp hv with h | h
        · exact absurd h.symm hwv
        · exact h
      have hlt : v < w := lt_of_le_of_ne (hpair.1 v hv') (fun h => hwv h.symm)
      simp [firstIdx, hwv, List.countP_cons, hlt, ih hpair.2 hv']

lemma sortDesc_perm (vs : List ℚ) : List.Perm (sortDesc vs) vs :=
  List.perm_insertionSort descRel vs

lemma rankOf_eq_count (vs : List ℚ) (v : ℚ) (hv : v ∈ vs) :
    rankOf vs v = 1 + vs.countP (fun w => v < w) := by
  have hperm := sortDesc_perm vs
  have hsorted : List.Sorted descRel (sortDesc vs) :=
    List.sorted_insertionSort descRel vs
  rw [rankOf, firstIdx_sorted _ hsorted v (hperm.mem_iff.mpr hv),
    hperm.countP_eq]

lemma countP_gap (vs : List ℚ) (a b : ℚ) (hba : b < a)
    (hgap : ∀ w ∈ vs, ¬(b < w ∧ w < a)) :
    vs.countP (fun w => b < w)
      = vs.countP (fun w => a < w) + vs.countP (fun w => w = a) := by
  induction vs with
  | nil => simp
  | cons w ws ih =>
    have hw := hgap w (List.mem_cons_self w ws)
    have ihw := ih (fun x hx => hgap x (List.mem_cons_of_mem w hx))
    rw [List.countP_cons, List.countP_cons, List.countP_cons, ihw]
    by_cases h1 : w = a
    · have hbw : b < w := by rw [h1]; exact hba
      have haw : ¬a < w := by rw [h1]; exact lt_irrefl a
      simp only [decide_eq_true_eq]
      rw [if_pos hbw, if_neg haw, if_pos h1]
      omega
    · by_cases h2 : a < w
      · have h3 : b < w := lt_trans hba h2
        simp only [decide_eq_true_eq]
        rw [if_pos h3, if_pos h2, if_neg h1]
        omega
      · have h4 : ¬(b < w) := by
          intro hbw
          exact hw ⟨hbw, lt_of_le_of_ne (not_lt.mp h2) h1⟩
        simp only [decide_eq_true_eq]
        rw [if_neg h4, if_neg h2, if_neg h1]
        omega

/-- The divisor of the intensity interpolation (`maxRank - 1` at
`app.py` line 200). -/
def intensityDivisor (maxRank : ℤ) : ℚ := (maxRank : ℚ) - 1

/-- The intensity computed by the client-side callback (`app.py` line
200), in exact arithmetic:
`50 + Math.floor((255 - 50) * (1 - (maxRank - rank) / (maxRank - 1)))`. -/
def colorIntensity (rank maxRank : ℤ) : ℤ :=
  50 + Int.floor (((255 : ℚ) - 50) *
    (1 - ((maxRank : ℚ) - (rank : ℚ)) / intensityDivisor maxRank))

/-- Modelled from the spec: the formula section 4.2 states for
`colorIntensity`, written down only to compare it with the code's
`colorIntensity` above. -/
def specColorIntensity (rank maxRank : ℤ) : ℤ :=
  50 + Int.floor ((205 : ℚ) * ((maxRank : ℚ) - (rank : ℚ)) / ((maxRank : ℚ) - 1))

/-- The callback's `maxRank` (`app.py` line 198): the constant `14`,
whatever dataset (list of areas) is loaded. -/
def usedMaxRank (areas : List String) : ℕ := 14

/-- The callback's `totalUnits` (`app.py` line 221): the constant `14`,
whatever dataset is loaded. -/
def usedTotalUnits (areas : List String) : ℕ := 14

/-- Intensity the callback actually assigns to a region of the given
rank: `colorIntensity` at the hardcoded `maxRank`. -/
def callbackIntensity (areas : List String) (rank : ℤ) : ℤ :=
  colorIntensity rank (usedMaxRank areas : ℤ)

/-- `fieldSigns?.[field] || "Positive"` (`app.py` line 176): a missing or
falsy (empty) sign resolves to `"Positive"`. -/
def resolvedSign (o : Option String) : String :=
  match o with
  | none => "Positive"
  | some s => if s = "" then "Positive" else s

/-- The RGB fill assigned at `app.py` lines 202-206: the intensity goes
to the green channel when the resolved sign is `"Positive"`, otherwise
to the red channel; the remaining channels are `0`. -/
def fillRGB (sign : String) (intensity : ℤ) : ℤ × ℤ × ℤ :=
  if sign = "Positive" then (0, intensity, 0) else (intensity, 0, 0)

/-- Number of filled segments drawn by the bar loop (`app.py` lines
230-237): the segments `i` in `[0, totalUnits)` with
`i <= totalUnits - rank`. -/
def barFilledCount (rank : ℤ) (totalUnits : ℕ) : ℕ :=
  ((List.range totalUnits).filter
    (fun (i : ℕ) => (i : ℤ) ≤ (totalUnits : ℤ) - rank)).length

/-- The startup export step (`app.py` lines 107-108): the bundle is
written only when no artifact exists at the output path; an existing
artifact is kept as is. -/
def startupExport (existing : Option String) (fresh : String) : Option String :=
  match existing with
  | some prior => some prior
  | none => some fresh

/-- Python `dict(zip(keys, vals))` lookup (`app.py` line 57): a later
pair with the same key overrides an earlier one. -/
def dictLast (ps : List (String × ℕ)) (k : String) : Option ℕ :=
  match ps with
  | [] => none
  | (a, v) :: rest =>
    match dictLast rest k with
    | some w => some w
    | none => if a = k then some v else none

/-- `all_field_ranks[field]` (`app.py` lines 56-59): the dict from area
to the field's rank, built by zipping the full area column with the
rank column. -/
def fieldRankMap (areas : List String) (vs : List ℚ) (a : String) : Option ℕ :=
  dictLast (areas.zip (ranksCol vs)) a

/-- `int(ranks_df.loc[df["Area"] == area, field].values[0])` (`app.py`
line 63): the rank at the first row whose area equals `a`. -/
def areaRankFirst (areas : List String) (vs : List ℚ) (a : String) : Option ℕ :=
  (ranksCol vs)[firstIdx a areas]?

/-- Helper for first-occurrence deduplication: keep the elements not yet
seen, in order, remembering the ones already emitted. -/
def uniqueFirstAux {α : Type} [DecidableEq α] (seen : List α) : List α → List α
  | [] => []
  | x :: xs =>
    if x ∈ seen then uniqueFirstAux seen xs
    else x :: uniqueFirstAux (x :: seen) xs

/-- First-occurrence deduplication, as `pandas.Series.unique` returns
values in order of appearance. -/
def uniqueFirst {α : Type} [DecidableEq α] (l : List α) : List α :=
  uniqueFirstAux [] l

/-- `df["Area"].dropna().unique().tolist()` (`app.py` line 86): drop the
missing names, keep the first occurrence of each remaining name. -/
def areasOut (col : List (Option String)) : List String :=
  uniqueFirst (col.filterMap id)

lemma colorIntensity_eq_of (r m q : ℤ)
    (h : ((255 : ℚ) - 50) * (1 - ((m : ℚ) - (r : ℚ)) / intensityDivisor m) = (q : ℚ)) :
    colorIntensity r m = 50 + q := by
  rw [colorIntensity, h, Int.floor_intCast]

/-- C1: for every field (column of cleaned values), the rank assigned to
a region equals 1 plus the number of regions with strictly greater
cleaned value; regions with equal cleaned values receive the same rank;
and after a tie group the next distinct value's rank skips the
intervening numbers (it grows by the full size of the tie group). -/
theorem c1_competition_ranking (vs : List ℚ) (v a b : ℚ)
    (hv : v ∈ vs) (ha : a ∈ vs) (hb : b ∈ vs) (hba : b < a)
    (hgap : ∀ w ∈ vs, ¬(b < w ∧ w < a)) :
    rankOf vs v = 1 + vs.countP (fun w => v < w) ∧
    (∀ u w : ℚ, u ∈ vs → w ∈ vs → u = w → rankOf vs u = rankOf vs w) ∧
    rankOf vs b = rankOf vs a + vs.countP (fun w => w = a) := by
  refine ⟨rankOf_eq_count vs v hv, fun u w _ _ h => by rw [h], ?_⟩
  rw [rankOf_eq_count vs b hb, rankOf_eq_count vs a ha,
    countP_gap vs a b hba hgap]
  omega

theorem c1_competition_ranking_witness :
    rankOf [50, 30000, 0] 50
      = 1 + List.countP (fun w => decide ((50 : ℚ) < w)) [50, 30000, 0] ∧
    (∀ u w : ℚ, u ∈ ([50, 30000, 0] : List ℚ) → w ∈ ([50, 30000, 0] : List ℚ) →
      u = w → rankOf [50, 30000, 0] u = rankOf [50, 30000, 0] w) ∧
    rankOf [50, 30000, 0] 50
      = rankOf [50, 30000, 0] 30000
        + List.countP (fun w => decide (w = (30000 : ℚ))) [50, 30000, 0] :=
  c1_competition_ranking [50, 30000, 0] 50 30000 50 (by decide) (by decide)
    (by decide) (by decide) (by decide)

/-- C4: cleaning a cell removes every `$`, `%`, `,`, substitutes `"0"`
when the residue is empty, and fails exactly when the residue is
non-empty and non-numeric; the column transform treats each cell
independently; the scenario column cleans to `[50, 30000, 0]`, which
ranks to `[2, 1, 3]`. -/
theorem c4_clean_cells (s : String) (cells : List String) (i : ℕ) :
    (cleanCell s = none ↔ stripSymbols s ≠ "" ∧ parseFloat (stripSymbols s) = none) ∧
    (cleanColumn cells)[i]? = cells[i]?.map cleanCell ∧
    cleanColumn ["50%", "$30,000", ""] = [some 50, some 30000, some 0] ∧
    rankOf [50, 30000, 0] 50 = 2 ∧ rankOf [50, 30000, 0] 30000 = 1 ∧
    rankOf [50, 30000, 0] 0 = 3 := by
  refine ⟨?_, List.getElem?_map .., by decide, by decide, by decide, by decide⟩
  by_cases h : stripSymbols s = ""
  · simp only [cleanCell, h, if_pos rfl]
    have h0 : parseFloat "0" = some 0 := by decide
    simp [h0]
  · simp [cleanCell, h]

lemma specColorIntensity_eq_of (r m q : ℤ)
    (h : (205 : ℚ) * ((m : ℚ) - (r : ℚ)) / ((m : ℚ) - 1) = (q : ℚ)) :
    specColorIntensity r m = 50 + q := by
  rw [specColorIntensity, h, Int.floor_intCast]

/-- C2 counterexample: the code's interpolation runs opposite to the
claim: at `(rank, maxRank) = (1, 3)` the code yields intensity 50 while
the claim's formula yields 255, and rank 1 does NOT get the greatest
intensity. -/
theorem c2_counterexample :
    colorIntensity 1 3 = 50 ∧ colorIntensity 3 3 = 255 ∧
    specColorIntensity 1 3 = 255 ∧
    ¬(colorIntensity 1 3 > colorIntensity 3 3) := by
  have e1 : colorIntensity 1 3 = 50 + (0 : ℤ) :=
    colorIntensity_eq_of 1 3 0 (by norm_num [intensityDivisor])
  have e2 : colorIntensity 3 3 = 50 + (205 : ℤ) :=
    colorIntensity_eq_of 3 3 205 (by norm_num [intensityDivisor])
  have e3 : specColorIntensity 1 3 = 50 + (205 : ℤ) :=
    specColorIntensity_eq_of 1 3 205 (by norm_num)
  refine ⟨by omega, by omega, by omega, by omega⟩

/-- C2 (amended): for `2 ≤ maxRank` and `1 ≤ rank ≤ maxRank` the code's
intensity equals `50 + ⌊205 * (rank - 1) / (maxRank - 1)⌋`, lies in
`[50, 255]`, and is monotonically increasing in the rank number — so
rank 1, the best, gets the least intensity; in particular
`colorIntensity 1 3 < colorIntensity 3 3`. -/
theorem c2_color_intensity (rank rank' maxRank : ℤ)
    (hm : 2 ≤ maxRank) (h1 : 1 ≤ rank) (h2 : rank ≤ maxRank)
    (h1' : 1 ≤ rank') (h2' : rank' ≤ maxRank) (hrr : rank ≤ rank') :
    colorIntensity rank maxRank
      = 50 + Int.floor ((205 : ℚ) * ((rank : ℚ) - 1) / ((maxRank : ℚ) - 1)) ∧
    50 ≤ colorIntensity rank maxRank ∧ colorIntensity rank maxRank ≤ 255 ∧
    colorIntensity rank maxRank ≤ colorIntensity rank' maxRank ∧
    colorIntensity 1 3 < colorIntensity 3 3 := by
  have hmq : (2 : ℚ) ≤ (maxRank : ℚ) := by exact_mod_cast hm
  have hden : (0 : ℚ) < (maxRank : ℚ) - 1 := by linarith
  have hne : (maxRank : ℚ) - 1 ≠ 0 := ne_of_gt hden
  have hkey : ∀ r : ℤ,
      ((255 : ℚ) - 50) * (1 - ((maxRank : ℚ) - (r : ℚ)) / intensityDivisor maxRank)
        = (205 : ℚ) * ((r : ℚ) - 1) / ((maxRank : ℚ) - 1) := by
    intro r
    rw [intensityDivisor, one_sub_div hne,
      show ((maxRank : ℚ) - 1) - ((maxRank : ℚ) - (r : ℚ)) = (r : ℚ) - 1 from by ring,
      ← mul_div_assoc]
    norm_num
  have hrw : ∀ r : ℤ, colorIntensity r maxRank
      = 50 + Int.floor ((205 : ℚ) * ((r : ℚ) - 1) / ((maxRank : ℚ) - 1)) := by
    intro r
    rw [colorIntensity, hkey r]
  have harg : ∀ r : ℤ, 1 ≤ r → r ≤ maxRank →
      (0 : ℚ) ≤ (205 : ℚ) * ((r : ℚ) - 1) / ((maxRank : ℚ) - 1) ∧
      (205 : ℚ) * ((r : ℚ) - 1) / ((maxRank : ℚ) - 1) ≤ 205 := by
    intro r hr1 hr2
    have hr1q : (1 : ℚ) ≤ (r : ℚ) := by exact_mod_cast hr1
    have hr2q : (r : ℚ) ≤ (maxRank : ℚ) := by exact_mod_cast hr2
    constructor
    · exact div_nonneg (by linarith) hden.le
    · rw [div_le_iff hden]
      nlinarith
  have hmono : (205 : ℚ) * ((rank : ℚ) - 1) / ((maxRank : ℚ) - 1)
      ≤ (205 : ℚ) * ((rank' : ℚ) - 1) / ((maxRank : ℚ) - 1) := by
    have hq : (rank : ℚ) ≤ (rank' : ℚ) := by exact_mod_cast hrr
    apply (div_le_div_right hden).mpr
    linarith
  have hlow : (0 : ℤ) ≤ Int.floor ((205 : ℚ) * ((rank : ℚ) - 1) / ((maxRank : ℚ) - 1)) :=
    Int.floor_nonneg.mpr (harg rank h1 h2).1
  have hhigh : Int.floor ((205 : ℚ) * ((rank : ℚ) - 1) / ((maxRank : ℚ) - 1)) ≤ 205 := by
    have := Int.floor_le_floor (harg rank h1 h2).2
    rwa [show (205 : ℚ) = ((205 : ℤ) : ℚ) by norm_num, Int.floor_intCast] at this
  have e1 : colorIntensity 1 3 = 50 + (0 : ℤ) :=
    colorIntensity_eq_of 1 3 0 (by norm_num [intensityDivisor])
  have e2 : colorIntensity 3 3 = 50 + (205 : ℤ) :=
    colorIntensity_eq_of 3 3 205 (by norm_num [intensityDivisor])
  refine ⟨hrw rank, ?_, ?_, ?_, by omega⟩
  · rw [hrw rank]; omega
  · rw [hrw rank]; omega
  · rw [hrw rank, hrw rank']
    have := Int.floor_le_floor hmono
    omega

theorem c2_color_intensity_witness :
    colorIntensity 1 3
      = 50 + Int.floor ((205 : ℚ) * (((1 : ℤ) : ℚ) - 1) / (((3 : ℤ) : ℚ) - 1)) ∧
    50 ≤ colorIntensity 1 3 ∧ colorIntensity 1 3 ≤ 255 ∧
    colorIntensity 1 3 ≤ colorIntensity 2 3 ∧
    colorIntensity 1 3 < colorIntensity 3 3 :=
  c2_color_intensity 1 2 3 (by decide) (by decide) (by decide) (by decide)
    (by decide) (by decide)

/-- C3 counterexample: for a dataset of three distinct regions the
callback still uses `maxRank = 14` and `totalUnits = 14`, not the live
region count 3. -/
theorem c3_counterexample :
    usedMaxRank ["RegionA", "RegionB", "RegionC"]
        ≠ (uniqueFirst ["RegionA", "RegionB", "RegionC"]).length ∧
    usedTotalUnits ["RegionA", "RegionB", "RegionC"]
        ≠ (uniqueFirst ["RegionA", "RegionB", "RegionC"]).length := by
  decide

/-- C3 (amended): `maxRank` and `totalUnits` are the hardcoded constant
14, independent of the loaded dataset; each equals the live count of
distinct regions exactly when that count happens to be 14. -/
theorem c3_hardcoded_scale (areas : List String) :
    usedMaxRank areas = 14 ∧ usedTotalUnits areas = 14 ∧
    (usedMaxRank areas = (uniqueFirst areas).length
      ↔ (uniqueFirst areas).length = 14) ∧
    (usedTotalUnits areas = (uniqueFirst areas).length
      ↔ (uniqueFirst areas).length = 14) := by
  refine ⟨rfl, rfl, ?_, ?_⟩ <;> simp [usedMaxRank, usedTotalUnits, eq_comm]

/-- C5 counterexample: a single-region dataset does not receive the
maximum intensity: its only region has rank 1 and the callback (which
has no `maxRank == 1` guard and always uses `maxRank = 14`) assigns it
intensity 50, not 255. -/
theorem c5_counterexample :
    rankOf [(100 : ℚ)] 100 = 1 ∧
    callbackIntensity ["OnlyRegion"] 1 = 50 ∧
    callbackIntensity ["OnlyRegion"] 1 ≠ 255 := by
  have e1 : colorIntensity 1 14 = 50 + (0 : ℤ) :=
    colorIntensity_eq_of 1 14 0 (by norm_num [intensityDivisor])
  have e2 : callbackIntensity ["OnlyRegion"] 1 = colorIntensity 1 14 := by
    rw [callbackIntensity]
    norm_num [usedMaxRank]
  refine ⟨by decide, by omega, by omega⟩

/-- C5 (amended): the code has no `maxRank == 1` guard; it always uses
the constant `maxRank = 14`, whose interpolation divisor is 13 ≠ 0, so
no division by zero occurs for any dataset; the single region of a
one-region dataset (rank 1 by the rank engine) receives intensity 50,
not the maximum 255. -/
theorem c5_no_guard_no_div_zero (areas : List String) (rank : ℤ) :
    callbackIntensity areas rank = colorIntensity rank 14 ∧
    intensityDivisor (usedMaxRank areas : ℤ) = 13 ∧ (13 : ℚ) ≠ 0 ∧
    callbackIntensity areas ((rankOf [(100 : ℚ)] 100 : ℕ) : ℤ) = 50 := by
  have hcast : ((usedMaxRank areas : ℕ) : ℤ) = 14 := by norm_num [usedMaxRank]
  have hcb : ∀ r : ℤ, callbackIntensity areas r = colorIntensity r 14 := by
    intro r
    rw [callbackIntensity, hcast]
  have hr : ((rankOf [(100 : ℚ)] 100 : ℕ) : ℤ) = 1 := by
    have : rankOf [(100 : ℚ)] 100 = 1 := by decide
    rw [this]
    norm_num
  have e1 : colorIntensity 1 14 = 50 + (0 : ℤ) :=
    colorIntensity_eq_of 1 14 0 (by norm_num [intensityDivisor])
  refine ⟨hcb rank, ?_, by norm_num, ?_⟩
  · rw [hcast, intensityDivisor]
    norm_num
  · rw [hr, hcb 1]
    omega

/-- C6: the fill places the intensity in exactly one channel determined
by the resolved polarity — green for Positive, red for Negative, the
other two channels 0 — and a field missing from the polarity table is
treated as Positive. -/
theorem c6_polarity_channel (o : Option String) (i : ℤ) :
    (fillRGB (resolvedSign o) i = (0, i, 0) ∨ fillRGB (resolvedSign o) i = (i, 0, 0)) ∧
    (o = some "Positive" → fillRGB (resolvedSign o) i = (0, i, 0)) ∧
    (o = some "Negative" → fillRGB (resolvedSign o) i = (i, 0, 0)) ∧
    (o = none → fillRGB (resolvedSign o) i = (0, i, 0)) := by
  refine ⟨?_, ?_, ?_, ?_⟩
  · by_cases h : resolvedSign o = "Positive"
    · exact Or.inl (by rw [fillRGB, if_pos h])
    · exact Or.inr (by rw [fillRGB, if_neg h])
  · rintro rfl
    rw [show resolvedSign (some "Positive") = "Positive" from rfl, fillRGB, if_pos rfl]
  · rintro rfl
    rw [show resolvedSign (some "Negative") = "Negative" from by decide, fillRGB,
      if_neg (by decide)]
  · rintro rfl
    rw [show resolvedSign none = "Positive" from rfl, fillRGB, if_pos rfl]

theorem c6_polarity_channel_witness :
    fillRGB (resolvedSign (some "Negative")) 7 = (7, 0, 0) :=
  (c6_polarity_channel (some "Negative") 7).2.2.1 rfl

lemma length_filter_range (n : ℕ) (m : ℤ) :
    ((((List.range n).filter (fun (i : ℕ) => (i : ℤ) ≤ m)).length : ℤ))
      = max 0 (min (n : ℤ) (m + 1)) := by
  induction n with
  | zero => simp
  | succ k ih =>
    rw [List.range_succ, List.filter_append, List.length_append]
    by_cases h : (k : ℤ) ≤ m
    · simp only [List.filter_cons, List.filter_nil, decide_eq_true_eq, h, if_true,
        List.length_cons, List.length_nil, Nat.cast_add, Nat.cast_one, Nat.cast_succ]
      rw [ih]
      omega
    · simp only [List.filter_cons, List.filter_nil, decide_eq_true_eq, h, if_false,
        List.length_nil, Nat.cast_add, Nat.cast_zero, Nat.cast_succ]
      rw [ih]
      omega

/-- C7: the number of filled bar segments equals
`totalUnits - rank + 1` clamped to `[0, totalUnits]`; rank 1 fills all
`totalUnits` segments and rank `totalUnits` fills exactly one. -/
theorem c7_bar_filled_count (rank : ℤ) (n : ℕ) (hn : 1 ≤ n) :
    (barFilledCount rank n : ℤ) = max 0 (min (n : ℤ) ((n : ℤ) - rank + 1)) ∧
    barFilledCount 1 n = n ∧ barFilledCount ((n : ℕ) : ℤ) n = 1 := by
  have hmain : ∀ r : ℤ,
      (barFilledCount r n : ℤ) = max 0 (min (n : ℤ) ((n : ℤ) - r + 1)) := by
    intro r
    rw [barFilledCount, length_filter_range n ((n : ℤ) - r)]
  have hnq : (1 : ℤ) ≤ (n : ℤ) := by exact_mod_cast hn
  refine ⟨hmain rank, ?_, ?_⟩
  · have := hmain 1
    omega
  · have := hmain ((n : ℕ) : ℤ)
    omega

theorem c7_bar_filled_count_witness :
    (barFilledCount 3 14 : ℤ)
      = max 0 (min ((14 : ℕ) : ℤ) (((14 : ℕ) : ℤ) - 3 + 1)) ∧
    barFilledCount 1 14 = 14 ∧ barFilledCount (((14 : ℕ) : ℕ) : ℤ) 14 = 1 :=
  c7_bar_filled_count 3 14 (by decide)

/-- C8: an artifact already present at startup makes the export step a
no-op (the artifact is kept byte-for-byte); the bundle is written only
when the artifact is absent; after startup an artifact is always
present, so the only state transition is absent → present. -/
theorem c8_export_skip (s fresh : String) (st : Option String) :
    startupExport (some s) fresh = some s ∧
    startupExport none fresh = some fresh ∧
    (startupExport st fresh).isSome = true ∧
    (st ≠ none → startupExport st fresh = st) := by
  refine ⟨rfl, rfl, ?_, ?_⟩ <;> cases st <;> simp [startupExport]

theorem c8_export_skip_witness :
    startupExport (some "prior artifact") "fresh bundle" = some "prior artifact" :=
  (c8_export_skip "prior artifact" "fresh bundle" (some "prior artifact")).2.2.2
    (by decide)

lemma firstIdx_of_nodup {α : Type} [DecidableEq α] :
    ∀ (l : List α) (i : ℕ) (a : α), l.Nodup → l[i]? = some a → firstIdx a l = i := by
  intro l
  induction l with
  | nil => intro i a _ h; simp at h
  | cons x xs ih =>
    intro i a hnd h
    cases i with
    | zero =>
      simp only [List.getElem?_cons_zero, Option.some_inj] at h
      simp [firstIdx, h]
    | succ j =>
      simp only [List.getElem?_cons_succ] at h
      have hmem : a ∈ xs := by
        have hj : j < xs.length := by
          by_contra hc
          rw [List.getElem?_eq_none (le_of_not_lt hc)] at h
          exact Option.noConfusion h
        have := List.getElem?_eq_getElem hj
        rw [this, Option.some_inj] at h
        exact h ▸ List.getElem_mem hj
      have hx : ¬x = a := by
        rintro rfl
        exact (List.nodup_cons.mp hnd).1 hmem
      simp [firstIdx, hx, ih j a (List.nodup_cons.mp hnd).2 h]

lemma dictLast_zip_not_mem :
    ∀ (ks : List String) (rs : List ℕ) (k : String), k ∉ ks →
      dictLast (ks.zip rs) k = none := by
  intro ks
  induction ks with
  | nil => intro rs k _; simp [dictLast]
  | cons x xs ih =>
    intro rs k hk
    cases rs with
    | nil => simp [dictLast]
    | cons r rs' =>
      have hx : ¬x = k := fun h => hk (h ▸ List.mem_cons_self x xs)
      have hk' : k ∉ xs := fun h => hk (List.mem_cons_of_mem x h)
      rw [List.zip_cons_cons, dictLast, ih rs' k hk']
      exact if_neg hx

lemma dictLast_zip_nodup :
    ∀ (ks : List String) (rs : List ℕ) (i : ℕ) (a : String), ks.Nodup →
      rs.length = ks.length → ks[i]? = some a →
      dictLast (ks.zip rs) a = rs[i]? := by
  intro ks
  induction ks with
  | nil => intro rs i a _ _ hk; simp at hk
  | cons x xs ih =>
    intro rs i a hnd hlen hk
    cases rs with
    | nil => simp at hlen
    | cons r rs' =>
      have hnd' := List.nodup_cons.mp hnd
      have hlen' : rs'.length = xs.length := by simpa using hlen
      cases i with
      | zero =>
        simp only [List.getElem?_cons_zero, Option.some_inj] at hk
        subst hk
        have hnone : dictLast (xs.zip rs') x = none :=
          dictLast_zip_not_mem xs rs' x hnd'.1
        rw [List.zip_cons_cons, dictLast, hnone, List.getElem?_cons_zero]
        exact if_pos rfl
      | succ j =>
        simp only [List.getElem?_cons_succ] at hk
        have hj : j < xs.length := by
          by_contra hc
          rw [List.getElem?_eq_none (le_of_not_lt hc)] at hk
          exact Option.noConfusion hk
        have hrec := ih rs' j a hnd'.2 hlen' hk
        have hj' : j < rs'.length := hlen' ▸ hj
        have hw : rs'[j]? = some (rs'.get ⟨j, hj'⟩) := by
          rw [List.getElem?_eq_getElem hj']
          rfl
        rw [List.zip_cons_cons, dictLast, List.getElem?_cons_succ, hrec, hw]

/-- C9: the two reshapes of the rank table agree: for a region at row
`i` with name `a` and cleaned value `v`, the per-field top-level map and
the per-region map both yield the rank the rank engine computes for
that cell. -/
theorem c9_reshapes_agree (areas : List String) (vs : List ℚ) (i : ℕ)
    (a : String) (v : ℚ) (hnd : areas.Nodup) (hlen : vs.length = areas.length)
    (ha : areas[i]? = some a) (hv : vs[i]? = some v) :
    fieldRankMap areas vs a = some (rankOf vs v) ∧
    areaRankFirst areas vs a = some (rankOf vs v) := by
  have hlen' : (ranksCol vs).length = areas.length := by
    simp [ranksCol, hlen]
  have hrank : (ranksCol vs)[i]? = some (rankOf vs v) := by
    simp [ranksCol, List.getElem?_map, hv]
  constructor
  · rw [fieldRankMap, dictLast_zip_nodup areas (ranksCol vs) i a hnd hlen' ha, hrank]
  · rw [areaRankFirst, firstIdx_of_nodup areas i a hnd ha, hrank]

theorem c9_reshapes_agree_witness :
    fieldRankMap ["RegionA", "RegionB"] [1, 2] "RegionA"
      = some (rankOf [1, 2] 1) ∧
    areaRankFirst ["RegionA", "RegionB"] [1, 2] "RegionA"
      = some (rankOf [1, 2] 1) :=
  c9_reshapes_agree ["RegionA", "RegionB"] [1, 2] 0 "RegionA" 1 (by decide)
    (by decide) (by decide) (by decide)

lemma mem_uniqueFirstAux {α : Type} [DecidableEq α] (y : α) :
    ∀ (l seen : List α), y ∈ uniqueFirstAux seen l ↔ y ∈ l ∧ y ∉ seen := by
  intro l
  induction l with
  | nil => intro seen; simp [uniqueFirstAux]
  | cons x xs ih =>
    intro seen
    by_cases hx : x ∈ seen
    · rw [uniqueFirstAux, if_pos hx, ih seen]
      constructor
      · rintro ⟨h1, h2⟩
        exact ⟨List.mem_cons_of_mem x h1, h2⟩
      · rintro ⟨h1, h2⟩
        rcases List.mem_cons.mp h1 with rfl | h1'
        · exact absurd hx h2
        · exact ⟨h1', h2⟩
    · rw [uniqueFirstAux, if_neg hx]
      constructor
      · intro h
        rcases List.mem_cons.mp h with rfl | h'
        · exact ⟨List.mem_cons_self y xs, hx⟩
        · rcases (ih (x :: seen)).mp h' with ⟨h1, h2⟩
          exact ⟨List.mem_cons_of_mem x h1,
            fun hy => h2 (List.mem_cons_of_mem x hy)⟩
      · rintro ⟨h1, h2⟩
        rcases List.mem_cons.mp h1 with rfl | h1'
        · exact List.mem_cons_self y _
        · by_cases hyx : y = x
          · rw [hyx]
            exact List.mem_cons_self x _
          · refine List.mem_cons_of_mem x ((ih (x :: seen)).mpr ⟨h1', ?_⟩)
            intro hy
            rcases List.mem_cons.mp hy with h | h
            · exact hyx h
            · exact h2 h

lemma nodup_uniqueFirstAux {α : Type} [DecidableEq α] :
    ∀ (l seen : List α), (uniqueFirstAux seen l).Nodup := by
  intro l
  induction l with
  | nil => intro seen; simp [uniqueFirstAux]
  | cons x xs ih =>
    intro seen
    by_cases hx : x ∈ seen
    · rw [uniqueFirstAux, if_pos hx]
      exact ih seen
    · rw [uniqueFirstAux, if_neg hx]
      refine List.nodup_cons.mpr ⟨?_, ih (x :: seen)⟩
      intro hmem
      exact ((mem_uniqueFirstAux x xs (x :: seen)).mp hmem).2
        (List.mem_cons_self x seen)

lemma firstIdx_cons {α : Type} [DecidableEq α] (v w : α) (ws : List α) :
    firstIdx v (w :: ws) = if w = v then 0 else firstIdx v ws + 1 := rfl

lemma firstIdx_uniqueFirstAux_lt {α : Type} [DecidableEq α] :
    ∀ (l seen : List α) (a b : α), a ∈ l → b ∈ l → a ∉ seen → b ∉ seen →
      (firstIdx a (uniqueFirstAux seen l) < firstIdx b (uniqueFirstAux seen l) ↔
        firstIdx a l < firstIdx b l) := by
  intro l
  induction l with
  | nil => intro seen a b ha; simp at ha
  | cons x xs ih =>
    intro seen a b ha hb hasn hbsn
    by_cases hx : x ∈ seen
    · have hxa : ¬x = a := fun h => hasn (h ▸ hx)
      have hxb : ¬x = b := fun h => hbsn (h ▸ hx)
      have ha' : a ∈ xs := by
        rcases List.mem_cons.mp ha with rfl | h
        · exact absurd hx hasn
        · exact h
      have hb' : b ∈ xs := by
        rcases List.mem_cons.mp hb with rfl | h
        · exact absurd hx hbsn
        · exact h
      rw [uniqueFirstAux, if_pos hx, firstIdx_cons, firstIdx_cons, if_neg hxa,
        if_neg hxb, ih seen a b ha' hb' hasn hbsn]
      omega
    · rw [uniqueFirstAux, if_neg hx]
      by_cases hxa : x = a
      · rw [firstIdx_cons, firstIdx_cons, if_pos hxa, firstIdx_cons,
          firstIdx_cons, if_pos hxa]
        by_cases hxb : x = b
        · rw [if_pos hxb, if_pos hxb]
        · rw [if_neg hxb, if_neg hxb]
          omega
      · by_cases hxb : x = b
        · rw [firstIdx_cons, firstIdx_cons, if_neg hxa, if_pos hxb,
            firstIdx_cons, firstIdx_cons, if_neg hxa, if_pos hxb]
          omega
        · have ha' : a ∈ xs := by
            rcases List.mem_cons.mp ha with rfl | h
            · exact absurd rfl hxa
            · exact h
          have hb' : b ∈ xs := by
            rcases List.mem_cons.mp hb with rfl | h
            · exact absurd rfl hxb
            · exact h
          have hasn' : a ∉ x :: seen := by
            intro h
            rcases List.mem_cons.mp h with h' | h'
            · exact hxa h'.symm
            · exact hasn h'
          have hbsn' : b ∉ x :: seen := by
            intro h
            rcases List.mem_cons.mp h with h' | h'
            · exact hxb h'.symm
            · exact hbsn h'
          rw [firstIdx_cons, firstIdx_cons, if_neg hxa, if_neg hxb,
            firstIdx_cons, firstIdx_cons, if_neg hxa, if_neg hxb]
          have := ih (x :: seen) a b ha' hb' hasn' hbsn'
          omega

/-- C10: the exported areas list contains each region name at most once,
excludes missing names, and preserves the first-occurrence order of the
source column, even when that column contains duplicates. -/
theorem c10_areas_list (col : List (Option String)) (a b : String)
    (ha : some a ∈ col) (hb : some b ∈ col) :
    (areasOut col).Nodup ∧
    (∀ x : String, x ∈ areasOut col ↔ some x ∈ col) ∧
    (firstIdx a (areasOut col) < firstIdx b (areasOut col) ↔
      firstIdx a (col.filterMap id) < firstIdx b (col.filterMap id)) := by
  have hmem : ∀ x : String, x ∈ col.filterMap id ↔ some x ∈ col := by
    intro x
    simp [List.mem_filterMap]
  refine ⟨nodup_uniqueFirstAux _ _, ?_, ?_⟩
  · intro x
    rw [areasOut, uniqueFirst, mem_uniqueFirstAux]
    simp [hmem x]
  · rw [areasOut, uniqueFirst]
    exact firstIdx_uniqueFirstAux_lt (col.filterMap id) [] a b
      ((hmem a).mpr ha) ((hmem b).mpr hb) (by simp) (by simp)

theorem c10_areas_list_witness :
    (areasOut [some "A", none, some "B", some "A"]).Nodup ∧
    (∀ x : String, x ∈ areasOut [some "A", none, some "B", some "A"]
      ↔ some x ∈ [some "A", none, some "B", some "A"]) ∧
    (firstIdx "B" (areasOut [some "A", none, some "B", some "A"])
        < firstIdx "A" (areasOut [some "A", none, some "B", some "A"]) ↔
      firstIdx "B" (([some "A", none, some "B", some "A"]).filterMap id)
        < firstIdx "A" (([some "A", none, some "B", some "A"]).filterMap id)) :=
  c10_areas_list [some "A", none, some "B", some "A"] "B" "A" (by decide)
    (by decide)

end SDoH
